import Mathlib

/-!
Shallow embedding of `src/19 Utilities/Polynomial.cpp` (`Polynomial<T>`,
instantiated at `T = int`, modelled with `Int` coefficients).

A `Polynomial<int>` owns a raw buffer `T* terms` of `degree_ + 1`
coefficients (index 0 = constant term) plus a cached `int degree_`.  We
model the buffer as a `List Int` and the degree as an `Int` (it can be
`-1` for the empty / moved-from state).
-/

/-- State of a `Polynomial<int>`: the coefficient buffer `terms`
(index `i` holds the coefficient of `x^i`) and the cached `degree_`. -/
structure CPoly where
  terms : List Int
  degree : Int
  deriving DecidableEq, Repr

/-- Well-formedness invariant of a constructed or moved-from instance:
the buffer length is `degree + 1` (0 when degree = -1) and degree ≥ -1. -/
def Wf (p : CPoly) : Prop :=
  p.terms.length = (p.degree + 1).toNat ∧ -1 ≤ p.degree

instance (p : CPoly) : Decidable (Wf p) := by
  unfold Wf; infer_instance

/-- The initializer-list constructor (lines 16–25): given coefficients
listed highest-degree-first, `degree_ = coeffs.size() - 1`, and the loop
stores the first listed value at buffer index `degree_`, the last at
index 0 — i.e. the buffer is the reversed input list. -/
def ofList (coeffs : List Int) : CPoly :=
  ⟨coeffs.reverse, (coeffs.length : Int) - 1⟩

/-- The moved-from state established by the move constructor /
move assignment (lines 39–42, 56–65): `terms = nullptr`, `degree_ = -1`. -/
def movedFrom : CPoly :=
  ⟨[], -1⟩

/-- The default constructor (line 14) is `Polynomial() = default`: the raw
pointer `terms` and the `int degree_` are default-initialized, i.e. left
indeterminate.  We model it as receiving an arbitrary indeterminate state
and establishing nothing about it. -/
def defaultCtor (indeterminate : CPoly) : CPoly :=
  indeterminate

/-- `operator[] (int exp) const` (lines 73–78): returns `terms[exp]` when
`0 ≤ exp ≤ degree_`, otherwise returns `T(0)`.  Never fails. -/
def CPoly.get (p : CPoly) (exp : Int) : Int :=
  if exp ≤ p.degree ∧ 0 ≤ exp then p.terms.getD exp.toNat 0 else 0

/-- `evaluate(T x)` (lines 90–96): `result = 0`, then for `i` from 0 to
`degree_`, `result += terms[i] * pow(x, i)`, summing left-to-right.
(`std::pow` computes in `double`; on the integer arguments considered here
it is exact, so it is modelled as exact integer exponentiation.) -/
def CPoly.evaluate (p : CPoly) (x : Int) : Int :=
  (List.range (p.degree + 1).toNat).foldl
    (fun result i => result + p.terms.getD i 0 * x ^ i) 0

/-- `derivative()` (lines 99–108): result degree is `degree_ - 1`, buffer
`new T[degree_]{0}` of size `degree_`; the loop writes
`result.terms[i-1] = terms[i] * i` for `i = 1 .. degree_`, filling every
buffer index `k = i-1` exactly once, so the buffer is the map below. -/
def CPoly.derivative (p : CPoly) : CPoly :=
  ⟨(List.range p.degree.toNat).map
      (fun k => p.terms.getD (k + 1) 0 * ((k : Int) + 1)),
   p.degree - 1⟩

/-- `integral()` (lines 111–120): result degree is `degree_ + 1`, buffer
`new T[degree_ + 2]{0}`; index 0 keeps its zero initialization and the
loop writes `result.terms[i+1] = terms[i] / (i+1)` for `i = 0 .. degree_`.
C++ `int` division truncates toward zero, modelled by `Int.tdiv`. -/
def CPoly.integral (p : CPoly) : CPoly :=
  ⟨0 :: (List.range (p.degree + 1).toNat).map
      (fun i => Int.tdiv (p.terms.getD i 0) ((i : Int) + 1)),
   p.degree + 1⟩

/-- `operator+` (lines 125–135): result degree is `max(degree_, other.degree_)`,
and `result.terms[i] = (*this)[i] + other[i]` for `i = 0 .. max_degree`,
reading both operands through the zero-filling const `operator[]`. -/
def CPoly.add (p q : CPoly) : CPoly :=
  ⟨(List.range (max p.degree q.degree + 1).toNat).map
      (fun i : Nat => p.get i + q.get i),
   max p.degree q.degree⟩

/-- `operator-` (lines 138–148): same shape as `operator+` with subtraction. -/
def CPoly.sub (p q : CPoly) : CPoly :=
  ⟨(List.range (max p.degree q.degree + 1).toNat).map
      (fun i : Nat => p.get i - q.get i),
   max p.degree q.degree⟩

/-- `operator*` (polynomial × polynomial, lines 151–163): result degree is
`degree_ + other.degree_`, buffer `new T[new_degree + 1]{0}` pre-zeroed, and
the nested loops accumulate `result.terms[i+j] += terms[i] * other.terms[j]`
for `i = 0 .. degree_`, `j = 0 .. other.degree_`.  (When both operands are
empty the requested C++ buffer size is negative, which throws
`std::bad_array_new_length`; `Int.toNat` clamps that size to 0 here —
only the buffer size differs in that one case, no loop iteration occurs.) -/
def CPoly.mul (p q : CPoly) : CPoly :=
  ⟨(List.range (p.degree + 1).toNat).foldl
      (fun buf i =>
        (List.range (q.degree + 1).toNat).foldl
          (fun b j =>
            b.set (i + j) (b.getD (i + j) 0 + p.terms.getD i 0 * q.terms.getD j 0))
          buf)
      (List.replicate (p.degree + q.degree + 1).toNat 0),
   p.degree + q.degree⟩

/-- `operator==` (lines 178–184): false when the degrees differ, otherwise
compares `terms[i]` pairwise for `i = 0 .. degree_`. -/
def polyBEq (p q : CPoly) : Bool :=
  if p.degree ≠ q.degree then false
  else (List.range (p.degree + 1).toNat).all
    (fun i => p.terms.getD i 0 == q.terms.getD i 0)

/-- The string emitted by one iteration of the `operator<<` loop
(lines 194–198) for coefficient `c` at exponent `i` with the given `first`
flag: the `" + "` separator when not first and `c ≥ 0`, `" - "` when
`c < 0`, the absolute value of `c` unless it is 1 on a non-constant term,
then `"x"` when `i ≠ 0` and `"^i"` when `i > 1`. -/
def termPiece (c : Int) (i : Nat) (first : Bool) : String :=
  (if !first && 0 ≤ c then " + " else "") ++
  (if c < 0 then " - " else "") ++
  (if c.natAbs ≠ 1 ∨ i = 0 then toString c.natAbs else "") ++
  (if i ≠ 0 then "x" else "") ++
  (if 1 < i then "^" ++ toString i else "")

/-- One iteration of the `operator<<` loop body (lines 194–199) on the
state (output so far, `first` flag), appending each fragment in the order
the code emits it and clearing `first`. -/
def renderStep (st : String × Bool) (c : Int) (i : Nat) : String × Bool :=
  let s1 := if !st.2 && 0 ≤ c then st.1 ++ " + " else st.1
  let s2 := if c < 0 then s1 ++ " - " else s1
  let s3 := if c.natAbs ≠ 1 ∨ i = 0 then s2 ++ toString c.natAbs else s2
  let s4 := if i ≠ 0 then s3 ++ "x" else s3
  let s5 := if 1 < i then s4 ++ "^" ++ toString i else s4
  (s5, false)

/-- `operator<<` (lines 191–202), modelled as the `String` it writes:
iterate `i` from `degree_` down to 0, threading the output and the
`first` flag through `renderStep`. -/
def CPoly.render (p : CPoly) : String :=
  ((List.range (p.degree + 1).toNat).reverse.foldl
    (fun st i => renderStep st (p.terms.getD i 0) i) ("", true)).1

/-- The concatenation of the term strings for a list of exponents, the
`first` flag holding only for the head. -/
def piecesFrom (c : Nat → Int) : List Nat → Bool → String
  | [], _ => ""
  | i :: rest, first => termPiece (c i) i first ++ piecesFrom c rest false

/-! ## Helper lemmas -/

theorem get_eq_getD (p : CPoly) (exp : Int) (h1 : exp ≤ p.degree) (h2 : 0 ≤ exp) :
    p.get exp = p.terms.getD exp.toNat 0 := by
  unfold CPoly.get
  rw [if_pos ⟨h1, h2⟩]

theorem get_eq_zero (p : CPoly) (exp : Int) (h : ¬(exp ≤ p.degree ∧ 0 ≤ exp)) :
    p.get exp = 0 := by
  unfold CPoly.get
  rw [if_neg h]

theorem getD_map_range (f : Nat → Int) (n i : Nat) (h : i < n) :
    ((List.range n).map f).getD i 0 = f i := by
  rw [List.getD_eq_getElem?_getD, List.getElem?_map, List.getElem?_range h]
  rfl

theorem foldl_add_range (f : Nat → Int) (n : Nat) :
    ∀ a : Int, (List.range n).foldl (fun acc i => acc + f i) a
      = a + ∑ i in Finset.range n, f i := by
  induction n with
  | zero => intro a; simp
  | succ m ih =>
      intro a
      rw [List.range_succ, List.foldl_append, ih, Finset.sum_range_succ]
      simp [add_assoc]

theorem join_cons (a : String) (l : List String) :
    String.join (a :: l) = a ++ String.join l := by
  have key : ∀ (t : List String) (b : String),
      (t.foldl (fun r s => r ++ s) b).data
        = b.data ++ (t.foldl (fun r s => r ++ s) "").data := by
    intro t
    induction t with
    | nil => intro b; simp
    | cons s u ih =>
        intro b
        simp only [List.foldl_cons]
        rw [ih (b ++ s), ih ("" ++ s)]
        simp
  apply String.ext
  simp only [String.join, List.foldl_cons]
  rw [key l ("" ++ a)]
  simp

theorem renderStep_eq (st : String × Bool) (c : Int) (i : Nat) :
    renderStep st c i = (st.1 ++ termPiece c i st.2, false) := by
  unfold renderStep termPiece
  refine Prod.ext ?_ rfl
  dsimp only
  split_ifs <;> (apply String.ext; simp)

theorem termPiece_val (co : Int) (i : Nat) (first : Bool) :
    termPiece co i first
      = (if first = false ∧ 0 ≤ co then " + " else "") ++
        (if co < 0 then " - " else "") ++
        (if co.natAbs ≠ 1 ∨ i = 0 then toString co.natAbs else "") ++
        (if i ≠ 0 then "x" else "") ++
        (if 1 < i then "^" ++ toString i else "") := by
  unfold termPiece
  cases first <;> by_cases h2 : 0 ≤ co <;> simp [h2]

theorem render_foldl (c : Nat → Int) (l : List Nat) :
    ∀ (acc : String) (first : Bool),
      (l.foldl (fun st i => renderStep st (c i) i) (acc, first)).1
        = acc ++ piecesFrom c l first := by
  induction l with
  | nil => intro acc first; apply String.ext; simp [piecesFrom]
  | cons j t ih =>
      intro acc first
      rw [List.foldl_cons, renderStep_eq, ih]
      apply String.ext
      simp [piecesFrom]

theorem piecesFrom_eq_join (c : Nat → Int) (n : Nat) :
    ∀ l : List Nat, (∀ i ∈ l, i ≠ n) →
      piecesFrom c l false
        = String.join (l.map (fun i => termPiece (c i) i (decide (i = n)))) := by
  intro l
  induction l with
  | nil => intro _; rfl
  | cons j t ih =>
      intro hmem
      have hj : j ≠ n := hmem j (by simp)
      simp only [piecesFrom, List.map_cons, join_cons]
      rw [ih (fun i hi => hmem i (by simp [hi]))]
      have hd : decide (j = n) = false := by simp [hj]
      rw [hd]

theorem render_join (p : CPoly) (hne : 0 ≤ p.degree) :
    p.render = String.join ((List.range (p.degree + 1).toNat).reverse.map
      (fun i => termPiece (p.terms.getD i 0) i (decide (i = p.degree.toNat)))) := by
  have hn : (p.degree + 1).toNat = p.degree.toNat + 1 := by omega
  unfold CPoly.render
  rw [hn]
  have hrev : (List.range (p.degree.toNat + 1)).reverse
      = p.degree.toNat :: (List.range p.degree.toNat).reverse := by
    rw [List.range_succ]; simp
  rw [hrev, render_foldl]
  simp only [piecesFrom, List.map_cons, join_cons]
  rw [piecesFrom_eq_join (fun i => p.terms.getD i 0) p.degree.toNat
      (List.range p.degree.toNat).reverse (by intro i hi; simp at hi; omega)]
  apply String.ext
  simp

/-! ## Claim theorems -/

/-- C1: the code contains no `InvalidOperand` rejection anywhere.  With an
empty (moved-from, degree -1) operand, `operator+` returns a plain result
(the other operand's coefficients) and `operator*` returns an all-zero
polynomial of degree `other.degree - 1`; neither operation fails. -/
theorem empty_operand_ops_produce_results :
    movedFrom.add (ofList [1, 2]) = ⟨[2, 1], 1⟩ ∧
      (ofList [1, 2]).add movedFrom = ⟨[2, 1], 1⟩ ∧
      (ofList [1, 2]).mul movedFrom = ⟨[0], 0⟩ ∧
      movedFrom.mul (ofList [1, 2]) = ⟨[0], 0⟩ := by
  decide

/-- C2: for a constructed non-empty polynomial, the const indexed read
`get exp` returns 0 for every exponent outside `[0, degree]` (including
every negative one), and returns `coefficients[exp]` inside that range;
it is a total function and never fails. -/
theorem get_contract (p : CPoly) (h : Wf p) (hne : 0 ≤ p.degree) (exp : Int) :
    ((exp < 0 ∨ p.degree < exp) → p.get exp = 0) ∧
      (0 ≤ exp → exp ≤ p.degree → p.get exp = p.terms.getD exp.toNat 0) := by
  constructor
  · intro hout
    apply get_eq_zero
    intro hc
    obtain ⟨hc1, hc2⟩ := hc
    rcases hout with h3 | h3 <;> omega
  · intro h1 h2
    exact get_eq_getD p exp h2 h1

theorem get_contract_witness :
    Wf (ofList [3, 0, -4]) ∧ 0 ≤ (ofList [3, 0, -4]).degree ∧
      (ofList [3, 0, -4]).get (-5) = 0 ∧ (ofList [3, 0, -4]).get 7 = 0 ∧
      (ofList [3, 0, -4]).get 2 = (ofList [3, 0, -4]).terms.getD 2 0 := by
  refine ⟨by decide, by decide, ?_, ?_, ?_⟩
  · exact (get_contract (ofList [3, 0, -4]) (by decide) (by decide) (-5)).1
      (Or.inl (by decide))
  · exact (get_contract (ofList [3, 0, -4]) (by decide) (by decide) 7).1
      (Or.inr (by decide))
  · exact (get_contract (ofList [3, 0, -4]) (by decide) (by decide) 2).2
      (by decide) (by decide)

/-- C3: `Polynomial() = default` initializes nothing: the constructor is
the identity on whatever indeterminate values the members happen to hold,
so it does not establish degree = -1 or a null buffer.  The state with
degree -1 and no buffer is established by the move operations instead
(`movedFrom`). -/
theorem defaultCtor_is_identity :
    (defaultCtor ⟨[7], 3⟩).degree = 3 ∧ (defaultCtor ⟨[7], 3⟩).degree ≠ -1 ∧
      (defaultCtor ⟨[7], 3⟩).terms ≠ [] ∧
      movedFrom.degree = -1 ∧ movedFrom.terms = [] := by
  decide

/-- C4: for a non-empty polynomial, `evaluate x` — a left-to-right fold
adding `coefficients[i] * x^i` term by term — equals the sum of
`coefficients[i] * x^i` over `i` in `[0, degree]`. -/
theorem evaluate_eq_sum (p : CPoly) (h : Wf p) (hne : 0 ≤ p.degree) (x : Int) :
    p.evaluate x
      = ∑ i in Finset.range (p.degree + 1).toNat, p.terms.getD i 0 * x ^ i := by
  unfold CPoly.evaluate
  rw [foldl_add_range]
  simp

theorem evaluate_eq_sum_witness :
    Wf (ofList [3, 0, -4]) ∧ 0 ≤ (ofList [3, 0, -4]).degree ∧
      (ofList [3, 0, -4]).evaluate 2 = 8 := by
  refine ⟨by decide, by decide, ?_⟩
  rw [evaluate_eq_sum (ofList [3, 0, -4]) (by decide) (by decide) 2]
  decide

/-- C5: for degree d ≥ 1, `derivative` has degree d - 1 and its coefficient
at index i - 1 is `coefficients[i] * i` for every i in [1, d]; for degree 0
it produces the degree -1 empty result with a zero-sized buffer. -/
theorem derivative_contract (p : CPoly) (h : Wf p) :
    (1 ≤ p.degree →
      p.derivative.degree = p.degree - 1 ∧
        ∀ i : Int, 1 ≤ i → i ≤ p.degree →
          p.derivative.get (i - 1) = p.get i * i) ∧
      (p.degree = 0 → p.derivative.degree = -1 ∧ p.derivative.terms = []) := by
  constructor
  · intro hd
    refine ⟨rfl, fun i hi1 hi2 => ?_⟩
    have e1 : (i - 1).toNat + 1 = i.toNat := by omega
    have e2 : ((i - 1).toNat : Int) + 1 = i := by omega
    have hlt : (i - 1).toNat < p.degree.toNat := by omega
    rw [get_eq_getD p.derivative (i - 1) (by change i - 1 ≤ p.degree - 1; omega)
          (by omega),
        get_eq_getD p i hi2 (by omega)]
    show ((List.range p.degree.toNat).map
        (fun k => p.terms.getD (k + 1) 0 * ((k : Int) + 1))).getD (i - 1).toNat 0
      = p.terms.getD i.toNat 0 * i
    rw [getD_map_range _ _ _ hlt, e1, e2]
  · intro h0
    constructor
    · change p.degree - 1 = -1
      omega
    · show (List.range p.degree.toNat).map
          (fun k => p.terms.getD (k + 1) 0 * ((k : Int) + 1)) = []
      rw [h0]
      rfl

theorem derivative_contract_witness :
    Wf (ofList [3, 0, -4]) ∧ 1 ≤ (ofList [3, 0, -4]).degree ∧
      (ofList [3, 0, -4]).derivative.get (2 - 1)
        = (ofList [3, 0, -4]).get 2 * 2 ∧
      (ofList [3, 0, -4]).derivative.degree = 1 ∧
      (ofList [3, 0, -4]).derivative.get 0 = 0 ∧
      (ofList [3, 0, -4]).derivative.get 1 = 6 := by
  refine ⟨by decide, by decide, ?_, by decide, by decide, by decide⟩
  exact ((derivative_contract (ofList [3, 0, -4]) (by decide)).1 (by decide)).2
    2 (by decide) (by decide)

/-- C6 counterexample: the initializer-list constructor reads coefficients
highest-degree-first, so the polynomial constructed from [1, 2] is x + 2
(buffer [2, 1]), whose integral has buffer [0, 2, 0]: `get 1 = 2` and
`get 2 = 0`, not 1 and 1 as the claim's example states. -/
theorem integral_example_as_claimed_false :
    ¬((ofList [1, 2]).integral.degree = 2 ∧
      (ofList [1, 2]).integral.get 0 = 0 ∧
      (ofList [1, 2]).integral.get 1 = 1 ∧
      (ofList [1, 2]).integral.get 2 = 1) := by
  decide

/-- C6 (amended): for a non-empty polynomial of degree d, `integral` has
degree d + 1, coefficient 0 at index 0, and coefficient
`coefficients[i] / (i+1)` (C++ truncating integer division) at index i + 1
for every i in [0, d].  The claim's example holds for the polynomial
constructed from [2, 1] (that is 2x + 1), not from [1, 2]. -/
theorem integral_contract (p : CPoly) (h : Wf p) (hne : 0 ≤ p.degree) :
    p.integral.degree = p.degree + 1 ∧ p.integral.get 0 = 0 ∧
      ∀ i : Int, 0 ≤ i → i ≤ p.degree →
        p.integral.get (i + 1) = Int.tdiv (p.get i) (i + 1) := by
  refine ⟨rfl, ?_, ?_⟩
  · rw [get_eq_getD p.integral 0 (by change (0 : Int) ≤ p.degree + 1; omega) le_rfl]
    rfl
  · intro i hi1 hi2
    have e1 : (i + 1).toNat = i.toNat + 1 := by omega
    have e2 : ((i.toNat : Int)) + 1 = i + 1 := by omega
    have hlt : i.toNat < (p.degree + 1).toNat := by omega
    rw [get_eq_getD p.integral (i + 1) (by change i + 1 ≤ p.degree + 1; omega)
          (by omega),
        get_eq_getD p i hi2 hi1]
    show (0 :: (List.range (p.degree + 1).toNat).map
        (fun j => Int.tdiv (p.terms.getD j 0) ((j : Int) + 1))).getD (i + 1).toNat 0
      = Int.tdiv (p.terms.getD i.toNat 0) (i + 1)
    rw [e1, List.getD_cons_succ, getD_map_range _ _ _ hlt, e2]

theorem integral_contract_witness :
    Wf (ofList [2, 1]) ∧ 0 ≤ (ofList [2, 1]).degree ∧
      (ofList [2, 1]).integral.get (0 + 1)
        = Int.tdiv ((ofList [2, 1]).get 0) (0 + 1) ∧
      (ofList [2, 1]).integral.degree = 2 ∧
      (ofList [2, 1]).integral.get 0 = 0 ∧
      (ofList [2, 1]).integral.get 1 = 1 ∧
      (ofList [2, 1]).integral.get 2 = 1 := by
  refine ⟨by decide, by decide, ?_, by decide, by decide, by decide, by decide⟩
  exact (integral_contract (ofList [2, 1]) (by decide) (by decide)).2.2
    0 le_rfl (by decide)

/-- C7 counterexample: for p constructed from [1] (degree 0) and q from
[1, 2] (degree 1) — both valid non-empty polynomials — the round trip
`(p + q) - q` has degree 1 (the max-degree rule never shrinks the result),
so the structural `operator==` against p is false. -/
theorem add_sub_roundtrip_fails_on_higher_degree_q :
    Wf (ofList [1]) ∧ Wf (ofList [1, 2]) ∧
      0 ≤ (ofList [1]).degree ∧ 0 ≤ (ofList [1, 2]).degree ∧
      polyBEq (((ofList [1]).add (ofList [1, 2])).sub (ofList [1, 2]))
        (ofList [1]) = false := by
  decide

/-- C7 (amended): for valid non-empty polynomials p and q with
`q.degree ≤ p.degree`, the round trip `(p + q) - q` is structurally equal
to p under `operator==` (same degree and same stored coefficients).  When
`q.degree > p.degree` the result keeps degree `q.degree` and the structural
comparison fails even though the coefficients agree on `[0, p.degree]`. -/
theorem add_sub_roundtrip (p q : CPoly) (hp : Wf p) (hq : Wf q)
    (hpne : 0 ≤ p.degree) (hqd : q.degree ≤ p.degree) :
    polyBEq ((p.add q).sub q) p = true := by
  have hmax : max p.degree q.degree = p.degree := max_eq_left hqd
  have hd1 : (p.add q).degree = p.degree := hmax
  have hd2 : ((p.add q).sub q).degree = p.degree := by
    show max (p.add q).degree q.degree = p.degree
    rw [hd1, hmax]
  unfold polyBEq
  rw [if_neg (by rw [hd2]; exact fun hne => hne rfl : ¬((p.add q).sub q).degree ≠ p.degree)]
  rw [List.all_eq_true]
  intro i hi
  rw [List.mem_range, hd2] at hi
  have hii : (i : Int) ≤ p.degree := by omega
  have htn : ((i : Int)).toNat = i := by simp
  have hsub : ((p.add q).sub q).terms.getD i 0 = (p.add q).get i - q.get i := by
    show ((List.range (max (p.add q).degree q.degree + 1).toNat).map
        (fun j : Nat => (p.add q).get j - q.get j)).getD i 0 = _
    rw [hd1, hmax]
    exact getD_map_range _ _ _ (show i < (p.degree + 1).toNat by omega)
  have hadd : (p.add q).get i = p.get i + q.get i := by
    rw [get_eq_getD (p.add q) i (by rw [hd1]; exact hii) (Int.ofNat_nonneg i), htn]
    show ((List.range (max p.degree q.degree + 1).toNat).map
        (fun j : Nat => p.get j + q.get j)).getD i 0 = _
    rw [hmax]
    exact getD_map_range _ _ _ (show i < (p.degree + 1).toNat by omega)
  have hpq : p.get i = p.terms.getD i 0 := by
    rw [get_eq_getD p i hii (Int.ofNat_nonneg i), htn]
  rw [hsub, hadd, add_sub_cancel_right, hpq]
  exact beq_self_eq_true _

theorem add_sub_roundtrip_witness :
    Wf (ofList [3, 0, -4]) ∧ Wf (ofList [1, 2]) ∧
      0 ≤ (ofList [3, 0, -4]).degree ∧
      (ofList [1, 2]).degree ≤ (ofList [3, 0, -4]).degree ∧
      polyBEq (((ofList [3, 0, -4]).add (ofList [1, 2])).sub (ofList [1, 2]))
        (ofList [3, 0, -4]) = true :=
  ⟨by decide, by decide, by decide, by decide,
    add_sub_roundtrip (ofList [3, 0, -4]) (ofList [1, 2])
      (by decide) (by decide) (by decide) (by decide)⟩

/-- C8: for a non-empty polynomial the rendered string is the concatenation,
over every index i from `degree` down to 0 with no index skipped (so zero
coefficients render too), of a term string that contains the absolute value
of the coefficient exactly unless that absolute value is 1 and i ≠ 0 (unit
coefficients on non-constant terms are suppressed). -/
theorem render_terms_structure (p : CPoly) (h : Wf p) (hne : 0 ≤ p.degree) :
    p.render = String.join ((List.range (p.degree + 1).toNat).reverse.map
        (fun i => termPiece (p.terms.getD i 0) i (decide (i = p.degree.toNat)))) ∧
      ∀ (co : Int) (i : Nat) (first : Bool),
        termPiece co i first
          = (if first = false ∧ 0 ≤ co then " + " else "") ++
            (if co < 0 then " - " else "") ++
            (if co.natAbs ≠ 1 ∨ i = 0 then toString co.natAbs else "") ++
            (if i ≠ 0 then "x" else "") ++
            (if 1 < i then "^" ++ toString i else "") :=
  ⟨render_join p hne, termPiece_val⟩

theorem render_terms_structure_witness :
    Wf (ofList [3, 0, -4]) ∧ 0 ≤ (ofList [3, 0, -4]).degree ∧
      (ofList [3, 0, -4]).render
        = String.join ((List.range ((ofList [3, 0, -4]).degree + 1).toNat).reverse.map
            (fun i => termPiece ((ofList [3, 0, -4]).terms.getD i 0) i
              (decide (i = (ofList [3, 0, -4]).degree.toNat)))) :=
  ⟨by decide, by decide,
    (render_terms_structure (ofList [3, 0, -4]) (by decide) (by decide)).1⟩

/-- C9 counterexample: the formatter never suppresses zero terms, so the
polynomial constructed from [3, 0, -4] does not render as "3x^2 - 4". -/
theorem render_example_claim_false :
    (ofList [3, 0, -4]).render ≠ "3x^2 - 4" := by
  decide

/-- C9 (amended): the degree-2 polynomial constructed from the
highest-to-lowest coefficient list [3, 0, -4] renders as exactly
"3x^2 + 0x - 4" (the zero term at x^1 is rendered, not suppressed). -/
theorem render_example_actual :
    (ofList [3, 0, -4]).render = "3x^2 + 0x - 4" := by
  decide

/-- C10: adding the empty moved-from polynomial (degree -1, null buffer) to
a non-empty polynomial q, on either side, produces a result structurally
equal to q under `operator==`, because every read of the empty operand goes
through the zero-filling const `operator[]`. -/
theorem add_empty_identity (q : CPoly) (hq : Wf q) (hqne : 0 ≤ q.degree) :
    polyBEq (movedFrom.add q) q = true ∧ polyBEq (q.add movedFrom) q = true := by
  have hm1 : max movedFrom.degree q.degree = q.degree := by
    apply max_eq_right
    show (-1 : Int) ≤ q.degree
    omega
  have hm2 : max q.degree movedFrom.degree = q.degree := by
    apply max_eq_left
    show (-1 : Int) ≤ q.degree
    omega
  have hz : ∀ e : Int, movedFrom.get e = 0 := by
    intro e
    apply get_eq_zero
    intro hc
    obtain ⟨hc1, hc2⟩ := hc
    revert hc1
    show ¬(e ≤ -1)
    omega
  have hget : ∀ i : Nat, i < (q.degree + 1).toNat → q.get i = q.terms.getD i 0 := by
    intro i hi
    rw [get_eq_getD q i (by omega) (Int.ofNat_nonneg i)]
    simp
  constructor
  · unfold polyBEq
    rw [if_neg (by show ¬(movedFrom.add q).degree ≠ q.degree; rw [show (movedFrom.add q).degree = max movedFrom.degree q.degree from rfl, hm1]; exact fun hne => hne rfl)]
    rw [List.all_eq_true]
    intro i hi
    rw [List.mem_range] at hi
    have hdeg : (movedFrom.add q).degree = q.degree := hm1
    rw [hdeg] at hi
    have hterm : (movedFrom.add q).terms.getD i 0 = movedFrom.get i + q.get i := by
      show ((List.range (max movedFrom.degree q.degree + 1).toNat).map
          (fun j : Nat => movedFrom.get j + q.get j)).getD i 0 = _
      rw [hm1]
      exact getD_map_range _ _ _ hi
    rw [hterm, hz, zero_add, hget i hi]
    exact beq_self_eq_true _
  · unfold polyBEq
    rw [if_neg (by show ¬(q.add movedFrom).degree ≠ q.degree; rw [show (q.add movedFrom).degree = max q.degree movedFrom.degree from rfl, hm2]; exact fun hne => hne rfl)]
    rw [List.all_eq_true]
    intro i hi
    rw [List.mem_range] at hi
    have hdeg : (q.add movedFrom).degree = q.degree := hm2
    rw [hdeg] at hi
    have hterm : (q.add movedFrom).terms.getD i 0 = q.get i + movedFrom.get i := by
      show ((List.range (max q.degree movedFrom.degree + 1).toNat).map
          (fun j : Nat => q.get j + movedFrom.get j)).getD i 0 = _
      rw [hm2]
      exact getD_map_range _ _ _ hi
    rw [hterm, hz, add_zero, hget i hi]
    exact beq_self_eq_true _

theorem add_empty_identity_witness :
    Wf (ofList [1, 2]) ∧ 0 ≤ (ofList [1, 2]).degree ∧
      polyBEq (movedFrom.add (ofList [1, 2])) (ofList [1, 2]) = true ∧
      polyBEq ((ofList [1, 2]).add movedFrom) (ofList [1, 2]) = true := by
  refine ⟨by decide, by decide, ?_, ?_⟩
  · exact (add_empty_identity (ofList [1, 2]) (by decide) (by decide)).1
  · exact (add_empty_identity (ofList [1, 2]) (by decide) (by decide)).2
